import Mathlib

set_option autoImplicit false

/-!
Verification development for the BigCache service (src/main.py): a FastAPI
HTTP cache over LevelDB (plyvel).  The store is modelled as an association
list sorted in ascending lexicographic byte order, mirroring LevelDB's
ordered keyspace; keys and byte strings are lists of bytes (Nat).  Wall-clock
time (Python time.time()) is passed explicitly as a rational.  Each HTTP
handler of main.py is translated into a pure function from its inputs and the
server state to a response and a new state.
-/

namespace BigCache

/-- A byte string: keys and stored payloads. A byte is a Nat (0..255 in practice). -/
abbrev Key := List Nat

/-- Raw request/response body bytes. -/
abbrev Bytes := List Nat

/-- Strict lexicographic order on byte strings, the order in which LevelDB
iterates keys. -/
def keyLt : Key → Key → Bool
  | [], [] => false
  | [], _ :: _ => true
  | _ :: _, [] => false
  | a :: as, b :: bs => decide (a < b) || (decide (a = b) && keyLt as bs)

/-- Reflexive lexicographic order on byte strings; keyLe p k holds iff k ≥ p
fails to hold strictly below p, i.e. the iterator started at p yields k. -/
def keyLe : Key → Key → Bool
  | [], _ => true
  | _ :: _, [] => false
  | a :: as, b :: bs => decide (a < b) || (decide (a = b) && keyLe as bs)

/-- Model of bytes.startswith as used in main.py line 376: startsWithKey p k
is true iff p is an initial segment of k. -/
def startsWithKey : Key → Key → Bool
  | [], _ => true
  | _ :: _, [] => false
  | a :: as, b :: bs => decide (a = b) && startsWithKey as bs

/-- Model of key.lstrip of the slash character: drop every leading byte 47. -/
def lstripSlash (k : Key) : Key := k.dropWhile fun b => b == 47

/-- Model of key.rstrip of the slash character: drop every trailing byte 47. -/
def rstripSlash (k : Key) : Key := ((k.reverse).dropWhile fun b => b == 47).reverse

/-- Key normalization applied by the /cache, /pickle and DELETE /cache
handlers (main.py lines 153, 175, 194, 214, 352): strip all leading and all
trailing slashes from the captured path tail. -/
def stripKey (k : Key) : Key := rstripSlash (lstripSlash k)

/-- An arbitrary JSON value, the payload of the value field of a CacheItem
(pydantic field value of type object). -/
inductive Json where
  | null
  | bool (b : Bool)
  | num (q : ℚ)
  | str (s : List Char)
  | arr (elems : List Json)
  | obj (fields : List (List Char × Json))

/-- The pydantic model CacheItem of main.py lines 111..114: an arbitrary JSON
value, an optional absolute expiration timestamp (Unix seconds), and an
optional duration literal. -/
structure CacheItem where
  value : Json
  expire : Option ℚ := none
  duration : Option (List Char) := none

/-- A value stored in LevelDB.  The source stores plain byte strings; in this
model a stored byte string is either the pydantic JSON encoding of a
CacheItem, written by set_cache (item.model_dump_json().encode(), which is
injective on CacheItem and never the empty byte string), or raw request-body
bytes written by set_pickle.  Reads through get_cache decode entry values and
fail on raw values; reads through get_pickle return the stored byte string
as is. -/
inductive StoredVal where
  | entry (item : CacheItem)
  | raw (b : Bytes)

/-- Pydantic JSON encodings are nonempty byte strings, so they are truthy in
the Python sense; raw bytes are truthy iff nonempty.  This is the test
performed by if value_bytes of main.py lines 197 and 217. -/
def svTruthy : StoredVal → Bool
  | StoredVal.entry _ => true
  | StoredVal.raw b => !(b.isEmpty)

/-- The LevelDB contents: an association list of key/value pairs kept in
ascending keyLt order (LevelDB stores keys sorted by byte order). -/
abbrev Store := List (Key × StoredVal)

/-- Point lookup, model of plyvel DB.get: some value when the key is present,
none when absent. -/
def dbGet : Store → Key → Option StoredVal
  | [], _ => none
  | (k', v) :: rest, k => if k' = k then some v else dbGet rest k

/-- Overwriting insert keeping the list sorted, model of plyvel DB.put. -/
def dbPut : Store → Key → StoredVal → Store
  | [], k, v => [(k, v)]
  | (k', v') :: rest, k, v =>
    if keyLt k k' then (k, v) :: (k', v') :: rest
    else if k = k' then (k, v) :: rest
    else (k', v') :: dbPut rest k v

/-- Idempotent removal, model of plyvel DB.delete. -/
def dbDelete (db : Store) (k : Key) : Store :=
  db.filter fun kv => !(decide (kv.1 = k))

/-- The sortedness invariant of the store: keys strictly ascending in byte
order. -/
def StoreSorted (db : Store) : Prop :=
  db.Pairwise fun a b => keyLt a.1 b.1 = true

/-- The four process-wide counters of main.py lines 85..90. -/
structure Stats where
  hit : Nat
  miss : Nat
  expire : Nat
  delete : Nat

/-- The mutable server state seen by the handlers: the LevelDB contents, an
open/closed flag for the handle app.state.db, and the counters. When the
handle is closed (or replaced by a never-awaited coroutine), every store
operation raises and the handler surfaces HTTP 500. -/
structure ServerState where
  db : Store
  dbOpen : Bool
  stats : Stats

/-- Increment the hit counter. -/
def bumpHit (s : ServerState) : ServerState :=
  { s with stats := { s.stats with hit := s.stats.hit + 1 } }

/-- Increment the miss counter. -/
def bumpMiss (s : ServerState) : ServerState :=
  { s with stats := { s.stats with miss := s.stats.miss + 1 } }

/-- HTTP outcome of a handler, carrying the 200 response body when ok.
missNF and expiredNF are the two 404 responses of get_cache/get_pickle
(detail mentioning miss, resp. expired); notFoundNF is the 404 of
delete_cache; badRequest is HTTP 400; err is HTTP 500, covering both
HTTPException(500) and any exception that escapes the handler. -/
inductive Resp (α : Type) where
  | ok (body : α)
  | missNF
  | expiredNF
  | notFoundNF
  | badRequest
  | err

/-- Multiplier of a duration unit character, from main.py lines 125..132:
seconds, minutes, hours, days; any other character fails the match. -/
def durUnit (c : Char) : Option Nat :=
  if c = 's' then some 1
  else if c = 'm' then some 60
  else if c = 'h' then some 3600
  else if c = 'd' then some 86400
  else none

/-- Numeric value of a digit run, model of Python int() on the matched group. -/
def digitsVal (ds : List Char) : Nat :=
  ds.foldl (fun a c => 10 * a + (c.toNat - 48)) 0

/-- Model of re.match of pattern (backslash-d plus, then one of smhd) against
the duration string, main.py line 120: the match is anchored at the start
only, so the maximal leading digit run must be nonempty and be followed by a
unit character; anything after the unit is ignored. Returns the number and
the unit multiplier. Python's digit class is modelled as ASCII digits. -/
def parseDur (cs : List Char) : Option (Nat × Nat) :=
  let ds := cs.takeWhile Char.isDigit
  match cs.dropWhile Char.isDigit with
  | [] => none
  | u :: _ => if ds.isEmpty then none else (durUnit u).map fun m => (digitsVal ds, m)

/-- Model of CacheItem parse duration (main.py lines 116..141): resolve the
duration literal against the current clock into an absolute expiration
now + N times unit; none when the literal does not match the grammar (the
source then raises ValueError). -/
def resolveDur (cs : List Char) (now : ℚ) : Option ℚ :=
  (parseDur cs).map fun nm => now + (nm.1 : ℚ) * (nm.2 : ℚ)

/-- Response body of POST /cache (main.py line 159). -/
structure SetOut where
  key : Key
  value : Json
  expire : Option ℚ

/-- Response body of GET /cache (main.py lines 222..227). -/
structure CacheGetOut where
  key : Key
  value : Json
  expire : Option ℚ
  duration : Option (List Char)

/-- Handler of POST /cache (set_cache, main.py lines 144..161): resolve the
duration if present (an invalid literal raises ValueError, which no except
clause catches, so the response is HTTP 500 and nothing is stored), strip
slashes from the key, store the encoded item, and echo key, value and the
resolved expire. -/
def setCache (rawKey : Key) (item : CacheItem) (now : ℚ) (s : ServerState) :
    Resp SetOut × ServerState :=
  if s.dbOpen then
    match item.duration with
    | none =>
      let key := stripKey rawKey
      (Resp.ok ⟨key, item.value, item.expire⟩,
        { s with db := dbPut s.db key (StoredVal.entry item) })
    | some d =>
      match resolveDur d now with
      | none => (Resp.err, s)
      | some e =>
        let item' : CacheItem := { item with expire := some e }
        let key := stripKey rawKey
        (Resp.ok ⟨key, item'.value, item'.expire⟩,
          { s with db := dbPut s.db key (StoredVal.entry item') })
  else (Resp.err, s)

/-- Handler of GET /cache (get_cache, main.py lines 207..242): strip slashes,
look the key up; absent (or an empty stored byte string, which is falsy)
counts a miss; a present entry is live iff expire is absent or strictly in
the future, counting a hit and returning the decoded record; a non-live
entry counts an expiration, is deleted from the store, and yields 404; raw
bytes that are nonempty fail pydantic decoding and surface HTTP 500. -/
def getCache (rawKey : Key) (now : ℚ) (s : ServerState) :
    Resp CacheGetOut × ServerState :=
  if s.dbOpen then
    let key := stripKey rawKey
    match dbGet s.db key with
    | some (StoredVal.entry item) =>
      match item.expire with
      | none => (Resp.ok ⟨key, item.value, none, item.duration⟩, bumpHit s)
      | some e =>
        if now < e then
          (Resp.ok ⟨key, item.value, some e, item.duration⟩, bumpHit s)
        else
          (Resp.expiredNF,
            { s with db := dbDelete s.db key,
                     stats := { s.stats with expire := s.stats.expire + 1 } })
    | some (StoredVal.raw b) =>
      if b.isEmpty then (Resp.missNF, bumpMiss s) else (Resp.err, s)
    | none => (Resp.missNF, bumpMiss s)
  else (Resp.err, s)

/-- Handler of POST /pickle (set_pickle, main.py lines 165..183): strip
slashes and store the raw request body without expiration. -/
def setPickle (rawKey : Key) (body : Bytes) (s : ServerState) :
    Resp Key × ServerState :=
  if s.dbOpen then
    let key := stripKey rawKey
    (Resp.ok key, { s with db := dbPut s.db key (StoredVal.raw body) })
  else (Resp.err, s)

/-- Handler of GET /pickle (get_pickle, main.py lines 186..204): strip
slashes, look up; a truthy stored byte string counts a hit and is returned
verbatim; an absent key, or a stored empty byte string (falsy), counts a
miss and yields 404. -/
def getPickle (rawKey : Key) (s : ServerState) :
    Resp StoredVal × ServerState :=
  if s.dbOpen then
    let key := stripKey rawKey
    match dbGet s.db key with
    | some v => if svTruthy v then (Resp.ok v, bumpHit s) else (Resp.missNF, bumpMiss s)
    | none => (Resp.missNF, bumpMiss s)
  else (Resp.err, s)

/-- Handler of DELETE /cache (delete_cache, main.py lines 346..363): strip
slashes; when get returns a value (is not None, so even an empty byte string
counts as present) delete it and count a deletion; otherwise 404 with the
state untouched. -/
def deleteCache (rawKey : Key) (s : ServerState) : Resp Unit × ServerState :=
  if s.dbOpen then
    let key := stripKey rawKey
    match dbGet s.db key with
    | some _ =>
      (Resp.ok (),
        { s with db := dbDelete s.db key,
                 stats := { s.stats with delete := s.stats.delete + 1 } })
    | none => (Resp.notFoundNF, s)
  else (Resp.err, s)

/-- Ascending list of the keys the iterator started at p yields
(db.iterator with start set to p, main.py line 375): every key at or above p
in byte order, in store order. -/
def iterKeysFrom (db : Store) (p : Key) : List Key :=
  (db.filter fun kv => keyLe p kv.1).map Prod.fst

/-- Flush of a pending write batch (plyvel write batch semantics): apply
every recorded delete to the store. -/
def writeBatch (db : Store) (wb : List Key) : Store :=
  wb.foldl dbDelete db

/-- Loop body of the underscore-named delete helper for key ranges
(main.py lines 374..386): walk the iterator; while the current key starts
with p, record its deletion in the batch and count it, flushing the batch
every 1000 recorded keys; stop at the first key that does not start with p.
On leaving the with-block the pending batch is flushed (plyvel write batch
context exit); the batch is never cleared after a flush, so a flush may
replay earlier deletes, which is idempotent. -/
def delPfxLoop (db : Store) (p : Key) (keys : List Key) (wb : List Key)
    (cnt : Nat) : Store × Nat :=
  match keys with
  | [] => (writeBatch db wb, cnt)
  | k :: rest =>
    if startsWithKey p k then
      let wb' := wb ++ [k]
      let cnt' := cnt + 1
      if cnt' % 1000 = 0 then delPfxLoop (writeBatch db wb') p rest wb' cnt'
      else delPfxLoop db p rest wb' cnt'
    else (writeBatch db wb, cnt)

/-- The underscore-named delete helper of main.py lines 366..388: iterate
from p over a snapshot of the store and delete the keys starting with p,
returning the new contents and the number of deleted keys. -/
def delPfxCore (db : Store) (p : Key) : Store × Nat :=
  delPfxLoop db p (iterKeysFrom db p) [] 0

/-- Handler of DELETE on the range route (main.py lines 391..409): the
captured tail is used verbatim (this handler performs no slash stripping);
an empty tail yields HTTP 400; otherwise the helper runs and its count is
added to the delete counter and echoed. -/
def deletePfx (pfxRaw : Key) (s : ServerState) : Resp Nat × ServerState :=
  if pfxRaw.isEmpty then (Resp.badRequest, s)
  else if s.dbOpen then
    let r := delPfxCore s.db pfxRaw
    (Resp.ok r.2,
      { s with db := r.1,
               stats := { s.stats with delete := s.stats.delete + r.2 } })
  else (Resp.err, s)

/-- A filesystem node: a regular file or a directory. -/
inductive FsNode where
  | file
  | dir

/-- Model of os.remove: unlinks a regular file; on a directory it raises
IsADirectoryError (returns none). -/
def osRemove : FsNode → Option Unit
  | FsNode.file => some ()
  | FsNode.dir => none

/-- The on-disk layout of a LevelDB store is a directory (connect_db even
creates it with os.makedirs, main.py line 77). -/
def storePathNode : FsNode := FsNode.dir

/-- Handler of GET /clear (get_clear, main.py lines 259..272): close the
handle, then call os.remove on the store path.  The store path is a
directory, so os.remove raises IsADirectoryError (and plyvel DB objects
expose no path attribute in the first place, which would raise
AttributeError even earlier); neither is a plyvel.Error, so the exception
escapes the except clause and the response is HTTP 500, with the store left
closed, its contents not removed, and the counters untouched.  Were the
removal to succeed, the re-open on line 269 calls the async connect_db
without awaiting it, leaving a coroutine object in app.state.db, so the
handle would still be unusable afterwards. -/
def getClear (s : ServerState) : Resp Unit × ServerState :=
  let s1 : ServerState := { s with dbOpen := false }
  match osRemove storePathNode with
  | none => (Resp.err, s1)
  | some _ => (Resp.ok (), s1)

/-! Basic store lemmas. -/

/-- Lexicographic byte order is irreflexive. -/
theorem keyLt_irrefl (a : Key) : keyLt a a = false := by
  induction a with
  | nil => rfl
  | cons x as ih => simp [keyLt, ih]

/-- A lookup right after a put of the same key returns the value just put. -/
theorem dbGet_dbPut_self (db : Store) (k : Key) (v : StoredVal) :
    dbGet (dbPut db k v) k = some v := by
  induction db with
  | nil => simp [dbPut, dbGet]
  | cons hd rest ih =>
    obtain ⟨k', v'⟩ := hd
    by_cases hlt : keyLt k k' = true
    · simp [dbPut, hlt, dbGet]
    · by_cases heq : k = k'
      · simp [dbPut, hlt, heq, dbGet, keyLt_irrefl]
      · simp [dbPut, hlt, heq, dbGet, Ne.symm heq, ih]

/-- A lookup right after a delete of the same key misses. -/
theorem dbGet_dbDelete_self (db : Store) (k : Key) :
    dbGet (dbDelete db k) k = none := by
  induction db with
  | nil => simp [dbDelete, dbGet]
  | cons hd rest ih =>
    by_cases heq : hd.1 = k
    · simpa [dbDelete, heq] using ih
    · simpa [dbDelete, heq, dbGet] using ih

/-! Slash-stripping lemmas. -/

/-- Dropping a leading slash does not change the left strip. -/
theorem lstripSlash_cons47 (k : Key) : lstripSlash (47 :: k) = lstripSlash k := by
  simp [lstripSlash, List.dropWhile_cons]

/-- Dropping a trailing slash does not change the right strip. -/
theorem rstripSlash_append47 (k : Key) : rstripSlash (k ++ [47]) = rstripSlash k := by
  simp [rstripSlash, List.dropWhile_cons]

/-- Key normalization absorbs a leading slash. -/
theorem stripKey_cons47 (k : Key) : stripKey (47 :: k) = stripKey k := by
  simp [stripKey, lstripSlash_cons47]

/-- Key normalization absorbs a trailing slash. -/
theorem stripKey_append47 (k : Key) : stripKey (k ++ [47]) = stripKey k := by
  induction k with
  | nil => rfl
  | cons a k ih =>
    by_cases ha : a = 47
    · subst ha
      rw [show (47 :: k) ++ [47] = 47 :: (k ++ [47]) from rfl,
        stripKey_cons47, stripKey_cons47, ih]
    · have h1 : lstripSlash (a :: (k ++ [47])) = a :: (k ++ [47]) := by
        simp [lstripSlash, List.dropWhile_cons, ha]
      have h2 : lstripSlash (a :: k) = a :: k := by
        simp [lstripSlash, List.dropWhile_cons, ha]
      rw [show (a :: k) ++ [47] = a :: (k ++ [47]) from rfl, stripKey, h1, stripKey, h2,
        show a :: (k ++ [47]) = (a :: k) ++ [47] from rfl, rstripSlash_append47]

/-! Concrete states used to evaluate the theorems on explicit inputs. -/

/-- All counters at zero, the value at process start. -/
def stats0 : Stats := ⟨0, 0, 0, 0⟩

/-- A fresh open server with an empty store. -/
def s0 : ServerState := ⟨[], true, stats0⟩

/-- A sample item with an absolute expiration and no duration. -/
def itemA : CacheItem := ⟨Json.str ['v'], some 5, none⟩

/-- A server whose store holds itemA under key k (byte 107). -/
def sE : ServerState := ⟨[([107], StoredVal.entry itemA)], true, stats0⟩

/-- A sample item with an unparseable duration literal. -/
def itemBad : CacheItem := ⟨Json.str ['v'], none, some ['x']⟩

/-- C1. For every key k and every JSON value v, performing set(k, v)
(POST /cache/k) and then get(k) (GET /cache/k) before any expiration returns
an entry whose value equals v and whose expire field equals the expire value
that the set response returned. -/
theorem set_then_get_returns_value_and_expire
    (rawKey : Key) (item : CacheItem) (now₁ now₂ : ℚ) (s : ServerState)
    (k : Key) (v : Json) (e : Option ℚ)
    (hset : (setCache rawKey item now₁ s).1 = Resp.ok ⟨k, v, e⟩)
    (hlive : ∀ q, e = some q → now₂ < q) :
    v = item.value ∧
    ∃ d, (getCache rawKey now₂ (setCache rawKey item now₁ s).2).1 =
      Resp.ok ⟨k, v, e, d⟩ := by
  by_cases ho : s.dbOpen = true
  swap
  · simp [setCache, ho] at hset
  cases hd : item.duration with
  | none =>
    rw [setCache] at hset ⊢
    simp only [ho, if_true, hd] at hset ⊢
    obtain ⟨hk, hv, he⟩ : k = stripKey rawKey ∧ v = item.value ∧ e = item.expire := by
      have := hset
      simp only [Resp.ok.injEq, SetOut.mk.injEq] at this
      exact ⟨this.1.symm, this.2.1.symm, this.2.2.symm⟩
    subst hk hv he
    refine ⟨rfl, item.duration, ?_⟩
    rw [getCache]
    simp only [ho, if_true, dbGet_dbPut_self]
    cases hexp : item.expire with
    | none => simp [hd]
    | some q =>
      have hq : now₂ < q := hlive q hexp
      simp [hd, hq]
  | some d =>
    rw [setCache] at hset ⊢
    simp only [ho, if_true, hd] at hset ⊢
    cases hr : resolveDur d now₁ with
    | none => simp [hr] at hset
    | some e' =>
      simp only [hr] at hset ⊢
      obtain ⟨hk, hv, he⟩ :
          k = stripKey rawKey ∧ v = item.value ∧ e = some e' := by
        have := hset
        simp only [Resp.ok.injEq, SetOut.mk.injEq] at this
        exact ⟨this.1.symm, this.2.1.symm, this.2.2.symm⟩
      subst hk hv he
      refine ⟨rfl, item.duration, ?_⟩
      rw [getCache]
      simp only [ho, if_true, dbGet_dbPut_self]
      have hq : now₂ < e' := hlive e' rfl
      simp [hq, hd]

/-- Witness for C1: on a fresh server, storing itemA under key k and reading
it back before its expiration returns the stored value and the echoed expire. -/
theorem set_then_get_witness :
    (setCache [107] itemA 0 s0).1 = Resp.ok ⟨[107], itemA.value, some 5⟩ ∧
    (itemA.value = itemA.value ∧
      ∃ d, (getCache [107] 1 (setCache [107] itemA 0 s0).2).1 =
        Resp.ok ⟨[107], itemA.value, some 5, d⟩) := by
  refine ⟨rfl, set_then_get_returns_value_and_expire [107] itemA 0 1 s0
    [107] itemA.value (some 5) rfl ?_⟩
  intro q hq
  injection hq with h
  rw [← h]
  norm_num

/-- C5 counterexample: the claim fails for the empty byte sequence.  Storing
an empty body through POST /pickle and reading it back yields 404 (the
stored empty byte string is falsy, so get_pickle counts a miss), not a 200
with the stored bytes. -/
theorem pickle_empty_body_cex :
    (getPickle [98] (setPickle [98] ([] : Bytes) s0).2).1 = Resp.missNF ∧
    (getPickle [98] (setPickle [98] ([] : Bytes) s0).2).1 ≠
      Resp.ok (StoredVal.raw []) := by
  refine ⟨rfl, ?_⟩
  intro h
  have h' : (Resp.missNF : Resp StoredVal) = Resp.ok (StoredVal.raw []) := h
  exact Resp.noConfusion h'

/-- C5 amended: for every key k and every NONEMPTY byte sequence B,
set_opaque(k, B) followed by get_opaque(k) returns HTTP 200 with a body
exactly equal to B byte-for-byte; an empty B is answered with 404 miss. -/
theorem pickle_roundtrip_nonempty (rawKey : Key) (B : Bytes) (s : ServerState)
    (ho : s.dbOpen = true) (hne : B ≠ []) :
    (getPickle rawKey (setPickle rawKey B s).2).1 = Resp.ok (StoredVal.raw B) := by
  rw [setPickle]
  simp only [ho, if_true]
  rw [getPickle]
  simp only [ho, if_true, dbGet_dbPut_self]
  simp [svTruthy, hne]

/-- Witness for C5 amended: a two-byte body round-trips exactly. -/
theorem pickle_roundtrip_witness :
    s0.dbOpen = true ∧ ([1, 255] : Bytes) ≠ [] ∧
    (getPickle [98] (setPickle [98] [1, 255] s0).2).1 =
      Resp.ok (StoredVal.raw [1, 255]) :=
  ⟨rfl, by simp, pickle_roundtrip_nonempty [98] [1, 255] s0 rfl (by simp)⟩

/-- C6. For every key k, delete(k) (DELETE /cache/k) signals NotFound
(HTTP 404) when k is absent from the store, and otherwise deletes k,
increments the delete counter, and succeeds with HTTP 200; in both cases a
subsequent get(k) returns NotFound(miss). -/
theorem delete_then_get_miss (rawKey : Key) (now : ℚ) (s : ServerState)
    (ho : s.dbOpen = true) :
    (dbGet s.db (stripKey rawKey) = none →
        deleteCache rawKey s = (Resp.notFoundNF, s) ∧
        (getCache rawKey now s).1 = Resp.missNF) ∧
    (∀ v, dbGet s.db (stripKey rawKey) = some v →
        (deleteCache rawKey s).1 = Resp.ok () ∧
        (deleteCache rawKey s).2 =
          { s with db := dbDelete s.db (stripKey rawKey),
                   stats := { s.stats with delete := s.stats.delete + 1 } } ∧
        (getCache rawKey now (deleteCache rawKey s).2).1 = Resp.missNF) := by
  constructor
  · intro habs
    constructor
    · simp [deleteCache, ho, habs]
    · simp [getCache, ho, habs]
  · intro v hv
    refine ⟨by simp [deleteCache, ho, hv], by simp [deleteCache, ho, hv], ?_⟩
    simp [deleteCache, ho, hv, getCache, dbGet_dbDelete_self]

/-- Witness for C6: deleting the present key k succeeds and the following
read misses. -/
theorem delete_then_get_miss_witness :
    sE.dbOpen = true ∧
    dbGet sE.db (stripKey [107]) = some (StoredVal.entry itemA) ∧
    (deleteCache [107] sE).1 = Resp.ok () ∧
    (getCache [107] 0 (deleteCache [107] sE).2).1 = Resp.missNF := by
  have h := (delete_then_get_miss [107] 0 sE rfl).2 (StoredVal.entry itemA) rfl
  exact ⟨rfl, rfl, h.1, h.2.2⟩

/-- C10. For every key k absent from the store, the DELETE /cache/k request
that responds 404 leaves the store contents and all four counters unchanged:
the returned state is exactly the input state. -/
theorem delete_absent_noop (rawKey : Key) (s : ServerState)
    (ho : s.dbOpen = true) (habs : dbGet s.db (stripKey rawKey) = none) :
    deleteCache rawKey s = (Resp.notFoundNF, s) := by
  simp [deleteCache, ho, habs]

/-- Witness for C10: deleting an absent key from a fresh server changes
nothing and answers 404. -/
theorem delete_absent_noop_witness :
    s0.dbOpen = true ∧ dbGet s0.db (stripKey [107]) = none ∧
    deleteCache [107] s0 = (Resp.notFoundNF, s0) :=
  ⟨rfl, rfl, delete_absent_noop [107] s0 rfl rfl⟩

/-- C9 counterexample: a POST /cache whose duration does not match the
grammar is answered with HTTP 500, not 400: the ValueError raised by
parse_duration is caught by no except clause in set_cache. -/
theorem bad_duration_cex :
    setCache [107] itemBad 0 s0 = (Resp.err, s0) ∧
    (setCache [107] itemBad 0 s0).1 ≠ Resp.badRequest := by
  refine ⟨rfl, ?_⟩
  intro h
  have h' : (Resp.err : Resp SetOut) = Resp.badRequest := h
  exact Resp.noConfusion h'

/-- C9 amended: for every POST /cache request whose duration field is present
but does not match the duration grammar, the response is HTTP 500 (the
uncaught ValueError from parse_duration) and nothing is written to the
store; the state is returned unchanged. -/
theorem bad_duration_500 (rawKey : Key) (item : CacheItem) (d : List Char)
    (now : ℚ) (s : ServerState) (ho : s.dbOpen = true)
    (hd : item.duration = some d) (hbad : parseDur d = none) :
    setCache rawKey item now s = (Resp.err, s) := by
  simp [setCache, ho, hd, resolveDur, hbad]

/-- Witness for C9 amended: the literal x parses as no duration and the set
request leaves the fresh server untouched with a 500. -/
theorem bad_duration_500_witness :
    s0.dbOpen = true ∧ itemBad.duration = some ['x'] ∧ parseDur ['x'] = none ∧
    setCache [107] itemBad 0 s0 = (Resp.err, s0) :=
  ⟨rfl, rfl, rfl, bad_duration_500 [107] itemBad ['x'] 0 s0 rfl rfl rfl⟩

/-- C8. GET /clear always answers HTTP 500 and leaves the store closed with
its contents and counters untouched: get_clear closes the handle and then
fails on the file-removal of the store path, which is a directory. The
claimed behavior (200, fresh empty store, counters reset) never happens. -/
theorem clear_returns_500 (s : ServerState) :
    getClear s = (Resp.err, { s with dbOpen := false }) := rfl

/-- C7 counterexample: the route deleting by key range does NOT strip
slashes from its captured tail.  With a store holding the single key a
(byte 97), the captured tails a and slash-a address different keyspaces:
the first deletes one key, the second deletes none, contradicting the claim
that paths differing only in leading slashes address the same entries. -/
def s7 : ServerState := ⟨[([97], StoredVal.raw [1])], true, stats0⟩

/-- C7 counterexample theorem, see s7. -/
theorem slash_strip_cex :
    (deletePfx [47, 97] s7).1 = Resp.ok 0 ∧
    (deletePfx [97] s7).1 = Resp.ok 1 := ⟨rfl, rfl⟩

/-- C7 amended: the /cache routes (GET, POST, DELETE) and the /pickle routes
(GET, POST) strip all leading and trailing slashes from the captured tail,
so for these five handlers request paths differing only in leading or
trailing slashes address the same stored entry; the route deleting by key
range uses its captured tail verbatim. -/
theorem slash_strip_amended (rawKey : Key) (item : CacheItem) (B : Bytes)
    (now : ℚ) (s : ServerState) :
    getCache (47 :: rawKey) now s = getCache rawKey now s ∧
    getCache (rawKey ++ [47]) now s = getCache rawKey now s ∧
    setCache (47 :: rawKey) item now s = setCache rawKey item now s ∧
    setCache (rawKey ++ [47]) item now s = setCache rawKey item now s ∧
    getPickle (47 :: rawKey) s = getPickle rawKey s ∧
    getPickle (rawKey ++ [47]) s = getPickle rawKey s ∧
    setPickle (47 :: rawKey) B s = setPickle rawKey B s ∧
    setPickle (rawKey ++ [47]) B s = setPickle rawKey B s ∧
    deleteCache (47 :: rawKey) s = deleteCache rawKey s ∧
    deleteCache (rawKey ++ [47]) s = deleteCache rawKey s := by
  refine ⟨?_, ?_, ?_, ?_, ?_, ?_, ?_, ?_, ?_, ?_⟩ <;>
    simp only [getCache, setCache, getPickle, setPickle, deleteCache,
      stripKey_cons47, stripKey_append47]

/-- C2. For every stored JSON-discipline entry, get(key) treats the entry as
live iff its expire field is absent or expire > now; when the entry is
present but expire ≤ now, the get increments the expire counter, deletes the
key from the store, and signals NotFound(expired), so that a second get of
the same key signals NotFound(miss) and increments the miss counter; when
the entry is live, the hit counter is incremented and the decoded record is
returned. -/
theorem get_expire_on_read (rawKey : Key) (item : CacheItem) (now now₂ : ℚ)
    (s : ServerState) (ho : s.dbOpen = true)
    (hstored : dbGet s.db (stripKey rawKey) = some (StoredVal.entry item)) :
    (∀ e, item.expire = some e → e ≤ now →
        getCache rawKey now s =
          (Resp.expiredNF,
            { s with db := dbDelete s.db (stripKey rawKey),
                     stats := { s.stats with expire := s.stats.expire + 1 } }) ∧
        (getCache rawKey now₂ (getCache rawKey now s).2).1 = Resp.missNF ∧
        ((getCache rawKey now₂ (getCache rawKey now s).2).2).stats.miss =
          s.stats.miss + 1) ∧
    ((item.expire = none ∨ ∃ e, item.expire = some e ∧ now < e) →
        (getCache rawKey now s).1 =
          Resp.ok ⟨stripKey rawKey, item.value, item.expire, item.duration⟩ ∧
        (getCache rawKey now s).2 = bumpHit s) := by
  constructor
  · intro e he hle
    have hfirst : getCache rawKey now s =
        (Resp.expiredNF,
          { s with db := dbDelete s.db (stripKey rawKey),
                   stats := { s.stats with expire := s.stats.expire + 1 } }) := by
      simp [getCache, ho, hstored, he, not_lt.2 hle]
    refine ⟨hfirst, ?_, ?_⟩
    · rw [hfirst]
      simp [getCache, ho, dbGet_dbDelete_self]
    · rw [hfirst]
      simp [getCache, ho, dbGet_dbDelete_self, bumpMiss]
  · rintro (he | ⟨e, he, hlt⟩)
    · constructor <;> simp [getCache, ho, hstored, he, bumpHit]
    · constructor <;> simp [getCache, ho, hstored, he, hlt, bumpHit]

/-- Witness for C2: itemA expires at 5; reading it at time 10 yields the 404
expired answer and deletes the key, and the second read misses. -/
theorem get_expire_on_read_witness :
    sE.dbOpen = true ∧
    dbGet sE.db (stripKey [107]) = some (StoredVal.entry itemA) ∧
    (getCache [107] 10 sE).1 = Resp.expiredNF ∧
    (getCache [107] 10 (getCache [107] 10 sE).2).1 = Resp.missNF ∧
    ((getCache [107] 10 (getCache [107] 10 sE).2).2).stats.miss = 1 := by
  have h := (get_expire_on_read [107] itemA 10 10 sE rfl rfl).1 5 rfl (by norm_num)
  exact ⟨rfl, rfl, by rw [h.1], h.2.1, h.2.2⟩

/-! Lemmas about the duration grammar. -/

/-- takeWhile runs through a block of elements that all satisfy the predicate. -/
theorem takeWhile_append_all {α : Type} {p : α → Bool} (ds l : List α)
    (h : ∀ c ∈ ds, p c = true) :
    (ds ++ l).takeWhile p = ds ++ l.takeWhile p := by
  induction ds with
  | nil => simp
  | cons c ds ih =>
    simp [List.takeWhile_cons, h c (by simp), ih fun c hc => h c (by simp [hc])]

/-- dropWhile skips a block of elements that all satisfy the predicate. -/
theorem dropWhile_append_all {α : Type} {p : α → Bool} (ds l : List α)
    (h : ∀ c ∈ ds, p c = true) :
    (ds ++ l).dropWhile p = l.dropWhile p := by
  induction ds with
  | nil => simp
  | cons c ds ih =>
    simp [List.dropWhile_cons, h c (by simp), ih fun c hc => h c (by simp [hc])]

/-- A character that carries a unit multiplier is not a digit. -/
theorem durUnit_not_digit {u : Char} {m : Nat} (h : durUnit u = some m) :
    u.isDigit = false := by
  rw [durUnit] at h
  split_ifs at h with h1 h2 h3 h4
  · subst h1; decide
  · subst h2; decide
  · subst h3; decide
  · subst h4; decide

/-- C4. For every duration string s: parsing succeeds iff s has a prefix
matching the anchored grammar of one or more digits followed by one of the
four unit characters; on success with number N and unit u the result is
expire = now + N·unit with multipliers s=1, m=60, h=3600, d=86400, and
trailing characters after the first valid match are tolerated (the rest of
the string is arbitrary); the resolved expire satisfies
now_before + N·unit ≤ expire ≤ now_after + N·unit whenever
now_before ≤ now ≤ now_after; any string not matching fails. -/
theorem parse_duration_grammar (cs : List Char) (nb na now : ℚ)
    (hb : nb ≤ now) (ha : now ≤ na) :
    durUnit 's' = some 1 ∧ durUnit 'm' = some 60 ∧
    durUnit 'h' = some 3600 ∧ durUnit 'd' = some 86400 ∧
    ((parseDur cs).isSome = true ↔
      ∃ ds u rest, cs = ds ++ u :: rest ∧ ds ≠ [] ∧
        (∀ c ∈ ds, c.isDigit = true) ∧ (durUnit u).isSome = true) ∧
    (∀ ds u rest m, cs = ds ++ u :: rest → ds ≠ [] →
      (∀ c ∈ ds, c.isDigit = true) → durUnit u = some m →
      resolveDur cs now = some (now + (digitsVal ds : ℚ) * (m : ℚ)) ∧
      nb + (digitsVal ds : ℚ) * (m : ℚ) ≤ now + (digitsVal ds : ℚ) * (m : ℚ) ∧
      now + (digitsVal ds : ℚ) * (m : ℚ) ≤ na + (digitsVal ds : ℚ) * (m : ℚ)) := by
  refine ⟨rfl, rfl, rfl, rfl, ?_, ?_⟩
  · constructor
    · intro hsome
      cases hdw : cs.dropWhile Char.isDigit with
      | nil => rw [parseDur] at hsome; simp [hdw] at hsome
      | cons u tail =>
        rw [parseDur] at hsome
        simp only [hdw] at hsome
        by_cases hemp : (cs.takeWhile Char.isDigit).isEmpty
        · simp [hemp] at hsome
        · refine ⟨cs.takeWhile Char.isDigit, u, tail, ?_, ?_, ?_, ?_⟩
          · rw [← hdw, List.takeWhile_append_dropWhile]
          · intro hnil; rw [hnil] at hemp; simp at hemp
          · intro c hc; exact List.mem_takeWhile_imp hc
          · simp only [hemp, if_false] at hsome
            cases hdu : durUnit u with
            | none => rw [hdu] at hsome; simp at hsome
            | some m => simp
    · rintro ⟨ds, u, tail, rfl, hne, hdig, hdu⟩
      obtain ⟨m, hm⟩ := Option.isSome_iff_exists.mp hdu
      have hund : u.isDigit = false := durUnit_not_digit hm
      have hdw : (ds ++ u :: tail).dropWhile Char.isDigit = u :: tail := by
        rw [dropWhile_append_all ds _ hdig, List.dropWhile_cons, hund]
        simp
      have htw : (ds ++ u :: tail).takeWhile Char.isDigit = ds := by
        rw [takeWhile_append_all ds _ hdig, List.takeWhile_cons, hund]
        simp
      rw [parseDur]
      simp only [hdw, htw]
      have : ds.isEmpty = false := by cases ds <;> simp_all
      simp [this, hm]
  · intro ds u tail m hcs hne hdig hm
    subst hcs
    have hund : u.isDigit = false := durUnit_not_digit hm
    have hdw : (ds ++ u :: tail).dropWhile Char.isDigit = u :: tail := by
      rw [dropWhile_append_all ds _ hdig, List.dropWhile_cons, hund]
      simp
    have htw : (ds ++ u :: tail).takeWhile Char.isDigit = ds := by
      rw [takeWhile_append_all ds _ hdig, List.takeWhile_cons, hund]
      simp
    have hemp : ds.isEmpty = false := by cases ds <;> simp_all
    have hres : resolveDur (ds ++ u :: tail) now =
        some (now + (digitsVal ds : ℚ) * (m : ℚ)) := by
      rw [resolveDur, parseDur]
      simp only [hdw, htw]
      simp [hemp, hm]
    exact ⟨hres, add_le_add_right hb _, add_le_add_right ha _⟩

/-- Witness for C4: the literal 10sx resolves, at time 1 with clock bounds
0 and 2, to the expiration 11 and parsing succeeds; the trailing x is
tolerated. -/
theorem parse_duration_witness :
    (0 : ℚ) ≤ 1 ∧ (1 : ℚ) ≤ 2 ∧
    (parseDur ['1', '0', 's', 'x']).isSome = true ∧
    resolveDur ['1', '0', 's', 'x'] 1 = some 11 ∧
    (0 : ℚ) + 10 * 1 ≤ 11 ∧ (11 : ℚ) ≤ 2 + 10 * 1 := by
  have h := parse_duration_grammar ['1', '0', 's', 'x'] 0 2 1
    (by norm_num) (by norm_num)
  have hv := h.2.2.2.2.2 ['1', '0'] 's' ['x'] 1 rfl (by simp) (by decide) rfl
  have h10 : digitsVal ['1', '0'] = 10 := by decide
  refine ⟨by norm_num, by norm_num, ?_, ?_, by norm_num, by norm_num⟩
  · exact (h.2.2.2.2.1).mpr ⟨['1', '0'], 's', ['x'], rfl, by simp, by decide, rfl⟩
  · have h1 := hv.1
    rw [h10] at h1
    rw [h1]
    norm_num

/-! Lemmas about the byte order, needed for the range-delete handler. -/

/-- Lexicographic byte order is asymmetric. -/
theorem keyLt_asymm {a : Key} : ∀ {b : Key},
    keyLt a b = true → keyLt b a = true → False := by
  induction a with
  | nil =>
    intro b h1 h2
    cases b with
    | nil => simp [keyLt] at h1
    | cons y bs => simp [keyLt] at h2
  | cons x as ih =>
    intro b h1 h2
    cases b with
    | nil => simp [keyLt] at h1
    | cons y bs =>
      simp only [keyLt, Bool.or_eq_true, Bool.and_eq_true, decide_eq_true_eq] at h1 h2
      rcases h1 with h1 | ⟨hxy, h1⟩
      · rcases h2 with h2 | ⟨hyx, _⟩
        · omega
        · omega
      · rcases h2 with h2 | ⟨_, h2⟩
        · omega
        · exact ih h1 h2

/-- Lexicographic byte order is transitive. -/
theorem keyLt_trans {a : Key} : ∀ {b c : Key},
    keyLt a b = true → keyLt b c = true → keyLt a c = true := by
  induction a with
  | nil =>
    intro b c h1 h2
    cases b with
    | nil => simp [keyLt] at h1
    | cons y bs =>
      cases c with
      | nil => simp [keyLt] at h2
      | cons z cs => simp [keyLt]
  | cons x as ih =>
    intro b c h1 h2
    cases b with
    | nil => simp [keyLt] at h1
    | cons y bs =>
      cases c with
      | nil => simp [keyLt] at h2
      | cons z cs =>
        simp only [keyLt, Bool.or_eq_true, Bool.and_eq_true, decide_eq_true_eq] at h1 h2 ⊢
        rcases h1 with h1 | ⟨hxy, h1⟩
        · rcases h2 with h2 | ⟨hyz, _⟩
          · left; omega
          · left; omega
        · rcases h2 with h2 | ⟨hyz, h2⟩
          · left; omega
          · right; exact ⟨by omega, ih h1 h2⟩

/-- Lexicographic byte order is total: two keys are ordered or equal. -/
theorem keyLt_trichotomy : ∀ (a b : Key),
    keyLt a b = true ∨ a = b ∨ keyLt b a = true := by
  intro a
  induction a with
  | nil =>
    intro b
    cases b with
    | nil => right; left; rfl
    | cons y bs => left; simp [keyLt]
  | cons x as ih =>
    intro b
    cases b with
    | nil => right; right; simp [keyLt]
    | cons y bs =>
      rcases Nat.lt_trichotomy x y with hxy | hxy | hxy
      · left; simp [keyLt, hxy]
      · subst hxy
        rcases ih bs with h | h | h
        · left; simp [keyLt, h]
        · right; left; rw [h]
        · right; right; simp [keyLt, h]
      · right; right; simp [keyLt, hxy]

/-- Shape of a put below the head of the store. -/
theorem dbPut_cons_lt {k k' : Key} {v v' : StoredVal} {rest : Store}
    (h : keyLt k k' = true) :
    dbPut ((k', v') :: rest) k v = (k, v) :: (k', v') :: rest := by
  simp [dbPut, h]

/-- Shape of a put that overwrites the head of the store. -/
theorem dbPut_cons_eq {k k' : Key} {v v' : StoredVal} {rest : Store}
    (h : k = k') :
    dbPut ((k', v') :: rest) k v = (k, v) :: rest := by
  subst h
  simp [dbPut, keyLt_irrefl]

/-- Shape of a put above the head of the store. -/
theorem dbPut_cons_gt {k k' : Key} {v v' : StoredVal} {rest : Store}
    (hlt : ¬keyLt k k' = true) (hne : ¬k = k') :
    dbPut ((k', v') :: rest) k v = (k', v') :: dbPut rest k v := by
  simp [dbPut, hlt, hne]

/-- Membership after a put: an element of the new store is the pair just
put or an element of the old store. -/
theorem mem_dbPut {db : Store} {k : Key} {v : StoredVal} :
    ∀ {x}, x ∈ dbPut db k v → x = (k, v) ∨ x ∈ db := by
  induction db with
  | nil => intro x hx; simp [dbPut] at hx; left; exact hx
  | cons hd rest ih =>
    intro x hx
    obtain ⟨k', v'⟩ := hd
    by_cases hlt : keyLt k k' = true
    · rw [dbPut_cons_lt hlt] at hx
      rcases List.mem_cons.mp hx with rfl | hx
      · left; rfl
      · right; exact hx
    · by_cases heq : k = k'
      · rw [dbPut_cons_eq heq] at hx
        rcases List.mem_cons.mp hx with rfl | hx
        · left; rfl
        · right; exact List.mem_cons_of_mem _ hx
      · rw [dbPut_cons_gt hlt heq] at hx
        rcases List.mem_cons.mp hx with rfl | hx
        · right; exact List.mem_cons_self _ _
        · rcases ih hx with h | h
          · left; exact h
          · right; exact List.mem_cons_of_mem _ h

/-- The empty store is sorted. -/
theorem storeSorted_nil : StoreSorted [] := List.Pairwise.nil

/-- A put keeps the store sorted: the sortedness hypothesis of the
range-delete theorem is an invariant of the write path. -/
theorem storeSorted_dbPut {db : Store} (k : Key) (v : StoredVal)
    (h : StoreSorted db) : StoreSorted (dbPut db k v) := by
  induction db with
  | nil => simp [dbPut, StoreSorted]
  | cons hd rest ih =>
    obtain ⟨hall, hrest⟩ := List.pairwise_cons.mp h
    obtain ⟨k', v'⟩ := hd
    by_cases hlt : keyLt k k' = true
    · rw [StoreSorted, dbPut_cons_lt hlt, List.pairwise_cons]
      refine ⟨?_, h⟩
      intro x hx
      rcases List.mem_cons.mp hx with rfl | hx
      · exact hlt
      · exact keyLt_trans hlt (hall x hx)
    · by_cases heq : k = k'
      · rw [StoreSorted, dbPut_cons_eq heq, List.pairwise_cons]
        exact ⟨fun x hx => heq ▸ hall x hx, hrest⟩
      · rw [StoreSorted, dbPut_cons_gt hlt heq, List.pairwise_cons]
        refine ⟨?_, ih hrest⟩
        intro x hx
        rcases mem_dbPut hx with rfl | hx
        · rcases keyLt_trichotomy k k' with h1 | h1 | h1
          · exact absurd h1 hlt
          · exact absurd h1 heq
          · exact h1
        · exact hall x hx

/-- A delete keeps the store sorted. -/
theorem storeSorted_dbDelete (db : Store) (k : Key) (h : StoreSorted db) :
    StoreSorted (dbDelete db k) :=
  List.Pairwise.sublist (List.filter_sublist db) h

/-- A key that starts with p is at or above p in byte order: the iterator
started at p reaches every key of the p-subtree. -/
theorem startsWith_keyLe {p : Key} : ∀ {k : Key},
    startsWithKey p k = true → keyLe p k = true := by
  induction p with
  | nil => intro k _; simp [keyLe]
  | cons x p ih =>
    intro k h
    cases k with
    | nil => simp [startsWithKey] at h
    | cons y ks =>
      simp only [startsWithKey, Bool.and_eq_true, decide_eq_true_eq] at h
      obtain ⟨rfl, h⟩ := h
      simp [keyLe, ih h]

/-- Contiguity of the p-subtree: a key that starts with p sorts strictly
below every key at or above p that does not start with p.  This is why the
range-delete loop may stop at the first non-matching key. -/
theorem keyLt_of_startsWith {p : Key} : ∀ {a b : Key},
    startsWithKey p a = true → keyLe p b = true → startsWithKey p b = false →
    keyLt a b = true := by
  induction p with
  | nil =>
    intro a b _ _ hb
    simp [startsWithKey] at hb
  | cons x p ih =>
    intro a b ha hb hnb
    cases a with
    | nil => simp [startsWithKey] at ha
    | cons a0 as =>
      cases b with
      | nil => simp [keyLe] at hb
      | cons b0 bs =>
        simp only [startsWithKey, Bool.and_eq_true, decide_eq_true_eq] at ha
        obtain ⟨rfl, ha'⟩ := ha
        simp only [keyLe, Bool.or_eq_true, Bool.and_eq_true, decide_eq_true_eq] at hb
        rcases hb with hb | ⟨rfl, hb⟩
        · simp [keyLt, hb]
        · have hnb' : startsWithKey p bs = false := by
            simpa [startsWithKey] using hnb
          simp [keyLt, ih ha' hb hnb']

/-- On a strictly ascending list of keys at or above p, scanning while the
key starts with p visits exactly the keys that start with p. -/
theorem takeWhile_eq_filter_sorted (p : Key) :
    ∀ (ks : List Key), (∀ k ∈ ks, keyLe p k = true) →
      ks.Pairwise (fun a b => keyLt a b = true) →
      ks.takeWhile (startsWithKey p) = ks.filter (startsWithKey p) := by
  intro ks
  induction ks with
  | nil => intro _ _; rfl
  | cons k rest ih =>
    intro hall hsort
    obtain ⟨hk, hsort'⟩ := List.pairwise_cons.mp hsort
    by_cases hs : startsWithKey p k = true
    · simp only [List.takeWhile_cons, List.filter_cons, hs, if_true]
      rw [ih (fun x hx => hall x (List.mem_cons_of_mem _ hx)) hsort']
    · have hfr : rest.filter (startsWithKey p) = [] := by
        refine List.filter_eq_nil_iff.mpr fun x hx => ?_
        intro hswx
        exact keyLt_asymm
          (keyLt_of_startsWith hswx (hall k (List.mem_cons_self k rest))
            (Bool.eq_false_iff.mpr hs))
          (hk x hx)
      simp [List.takeWhile_cons, List.filter_cons, hs, hfr]

/-- Restricting the iterator key list to the keys that start with p gives
exactly the p-subtree of the store, because starting with p implies being
at or above p. -/
theorem iter_filter_eq (p : Key) (db : Store) :
    ((db.filter fun kv => keyLe p kv.1).map Prod.fst).filter (startsWithKey p)
      = (db.filter fun kv => startsWithKey p kv.1).map Prod.fst := by
  induction db with
  | nil => rfl
  | cons kv rest ih =>
    by_cases hsw : startsWithKey p kv.1 = true
    · have hle : keyLe p kv.1 = true := startsWith_keyLe hsw
      simp [List.filter_cons, hle, hsw, ih]
    · by_cases hle : keyLe p kv.1 = true
      · simp [List.filter_cons, hle, hsw, ih]
      · simp [List.filter_cons, hle, hsw, ih]

/-- Flushing a batch removes from the store exactly the keys recorded in
the batch. -/
theorem writeBatch_eq_filter : ∀ (wb : List Key) (db : Store),
    writeBatch db wb = db.filter fun kv => !(decide (kv.1 ∈ wb)) := by
  intro wb
  induction wb with
  | nil => intro db; simp [writeBatch]
  | cons k wb ih =>
    intro db
    have hstep : writeBatch db (k :: wb) = writeBatch (dbDelete db k) wb := rfl
    rw [hstep, ih, dbDelete, List.filter_filter]
    refine List.filter_congr ?_
    intro x _
    by_cases h1 : x.1 = k <;> by_cases h2 : x.1 ∈ wb <;>
      simp [h1, h2, List.mem_cons]

/-- Flushing a batch and then a larger batch is the same as flushing only
the larger batch: deletes are idempotent, so the replays performed by the
source loop (which never clears the batch after a flush) are harmless. -/
theorem writeBatch_absorb {A B : List Key} (h : ∀ x ∈ A, x ∈ B) (db : Store) :
    writeBatch (writeBatch db A) B = writeBatch db B := by
  rw [writeBatch_eq_filter, writeBatch_eq_filter, writeBatch_eq_filter,
    List.filter_filter]
  refine List.filter_congr ?_
  intro x _
  by_cases h1 : x.1 ∈ A
  · by_cases h2 : x.1 ∈ B
    · simp [h1, h2]
    · exact absurd (h _ h1) h2
  · by_cases h2 : x.1 ∈ B <;> simp [h1, h2]

/-- The range-delete loop deletes exactly the initial run of keys starting
with p and counts them, whatever the pending batch and running count are. -/
theorem delPfxLoop_spec (p : Key) :
    ∀ (keys : List Key) (db : Store) (wb : List Key) (cnt : Nat),
      delPfxLoop db p keys wb cnt =
        (writeBatch db (wb ++ keys.takeWhile (startsWithKey p)),
         cnt + (keys.takeWhile (startsWithKey p)).length) := by
  intro keys
  induction keys with
  | nil => intro db wb cnt; simp [delPfxLoop]
  | cons k rest ih =>
    intro db wb cnt
    by_cases hs : startsWithKey p k = true
    · rw [delPfxLoop]
      simp only [hs, if_true]
      by_cases hm : (cnt + 1) % 1000 = 0
      · rw [if_pos hm, ih]
        rw [writeBatch_absorb (fun x hx => List.mem_append_left _ hx)]
        simp only [List.takeWhile_cons, hs, if_true, List.append_assoc,
          List.singleton_append, List.length_cons, Prod.mk.injEq]
        exact ⟨trivial, by omega⟩
      · rw [if_neg hm, ih]
        simp only [List.takeWhile_cons, hs, if_true, List.append_assoc,
          List.singleton_append, List.length_cons, Prod.mk.injEq]
        exact ⟨trivial, by omega⟩
    · rw [delPfxLoop]
      simp [hs, List.takeWhile_cons]

/-- C3. For every nonempty p and sorted store content, the range-delete
handler deletes exactly the entries whose keys start with p (iterating from
p in ascending byte order, stopping at the first non-matching key, with
batched flushes), returns that count, adds it to the delete counter, and
leaves every entry whose key does not start with p untouched; an empty p is
rejected with HTTP 400 and the state unchanged. -/
theorem delPfx_deletes_exactly_matching (pfxRaw : Key) (s : ServerState)
    (hsort : StoreSorted s.db) (ho : s.dbOpen = true) :
    (pfxRaw = [] → deletePfx pfxRaw s = (Resp.badRequest, s)) ∧
    (pfxRaw ≠ [] →
      deletePfx pfxRaw s =
        (Resp.ok (s.db.countP fun kv => startsWithKey pfxRaw kv.1),
         { s with
             db := s.db.filter fun kv => !(startsWithKey pfxRaw kv.1),
             stats := { s.stats with
               delete := s.stats.delete +
                 s.db.countP fun kv => startsWithKey pfxRaw kv.1 } })) := by
  constructor
  · intro h
    simp [deletePfx, h]
  · intro hne
    have hne' : pfxRaw.isEmpty = false := by cases pfxRaw <;> simp_all
    have hiter_all : ∀ k ∈ iterKeysFrom s.db pfxRaw, keyLe pfxRaw k = true := by
      intro k hk
      rw [iterKeysFrom] at hk
      obtain ⟨kv, hkv, rfl⟩ := List.mem_map.mp hk
      exact (List.mem_filter.mp hkv).2
    have hiter_sorted :
        (iterKeysFrom s.db pfxRaw).Pairwise fun a b => keyLt a b = true := by
      rw [iterKeysFrom]
      exact List.Pairwise.map _ (fun a b h => h)
        (List.Pairwise.sublist (List.filter_sublist _) hsort)
    have htw : (iterKeysFrom s.db pfxRaw).takeWhile (startsWithKey pfxRaw)
        = (s.db.filter fun kv => startsWithKey pfxRaw kv.1).map Prod.fst := by
      rw [takeWhile_eq_filter_sorted pfxRaw _ hiter_all hiter_sorted,
        iterKeysFrom, iter_filter_eq]
    have hwb : writeBatch s.db
          ((s.db.filter fun kv => startsWithKey pfxRaw kv.1).map Prod.fst)
        = s.db.filter fun kv => !(startsWithKey pfxRaw kv.1) := by
      rw [writeBatch_eq_filter]
      refine List.filter_congr ?_
      intro kv hkv
      by_cases hsw : startsWithKey pfxRaw kv.1 = true
      · have hmem : kv.1 ∈
            (s.db.filter fun x => startsWithKey pfxRaw x.1).map Prod.fst :=
          List.mem_map.mpr ⟨kv, List.mem_filter.mpr ⟨hkv, hsw⟩, rfl⟩
        simp [hmem, hsw]
      · have hmem : kv.1 ∉
            (s.db.filter fun x => startsWithKey pfxRaw x.1).map Prod.fst := by
          intro hmem
          obtain ⟨kv', hkv', hfst⟩ := List.mem_map.mp hmem
          have hsw' := (List.mem_filter.mp hkv').2
          rw [hfst] at hsw'
          exact hsw hsw'
        simp [hmem, hsw]
    have hlen :
        ((s.db.filter fun kv => startsWithKey pfxRaw kv.1).map Prod.fst).length
        = s.db.countP fun kv => startsWithKey pfxRaw kv.1 := by
      rw [List.length_map, List.countP_eq_length_filter]
    have hcore : delPfxCore s.db pfxRaw =
        (s.db.filter fun kv => !(startsWithKey pfxRaw kv.1),
         s.db.countP fun kv => startsWithKey pfxRaw kv.1) := by
      rw [delPfxCore, delPfxLoop_spec, htw, List.nil_append, hwb, hlen,
        Nat.zero_add]
    simp [deletePfx, hne', ho, hcore]

/-- A sorted three-key store used to evaluate the range-delete theorem:
keys a1, a2, b in byte order. -/
def db3 : Store :=
  [([97, 49], StoredVal.raw [1]), ([97, 50], StoredVal.raw [2]),
   ([98], StoredVal.raw [3])]

/-- An open server over db3. -/
def s3 : ServerState := ⟨db3, true, stats0⟩

/-- Witness for C3: deleting the range of keys starting with byte a removes
the two matching keys, returns count 2, adds 2 to the delete counter, and
leaves the key b untouched. -/
theorem delPfx_witness :
    StoreSorted db3 ∧ s3.dbOpen = true ∧ ([97] : Key) ≠ [] ∧
    deletePfx [97] s3 =
      (Resp.ok 2,
       { s3 with db := [([98], StoredVal.raw [3])],
                 stats := { stats0 with delete := 2 } }) := by
  have hs : StoreSorted db3 := by
    rw [StoreSorted]
    refine List.Pairwise.cons ?_ (List.Pairwise.cons ?_ (List.pairwise_singleton _ _))
    · intro b hb
      rcases List.mem_cons.mp hb with rfl | hb
      · rfl
      · rcases List.mem_cons.mp hb with rfl | hb
        · rfl
        · simp at hb
    · intro b hb
      rcases List.mem_cons.mp hb with rfl | hb
      · rfl
      · simp at hb
  refine ⟨hs, rfl, by simp, ?_⟩
  have h := (delPfx_deletes_exactly_matching [97] s3 hs rfl).2 (by simp)
  rw [h]
  rfl

end BigCache
